import Mathlib

/-!
Shallow embedding of `src/utils/metrics_utils.py` (kaggle_utils).

Numeric values are modelled by `ℚ` (the source computes with Python/numpy
floats; the algorithms under study are exact rational arithmetic except for
the RMSLE adapter, whose value is modelled over `ℝ`).  `numpy.mean` of an
empty array yields NaN (with a runtime warning), which we model explicitly
with the `NpFloat` type.  Item identifiers for AP@k / MAP@k are an arbitrary
type with decidable equality, mirroring Python's dynamically typed lists.
`np.argsort` is modelled as a stable sort of the index list by value.
-/

namespace KaggleUtils

/-- A numpy float result that may be NaN (e.g. `np.mean([])`, which emits a
runtime warning and returns NaN — a value, not an exception). -/
inductive NpFloat where
  | nan : NpFloat
  | val (q : ℚ) : NpFloat
  deriving DecidableEq

/-- `np.mean` on a list of rationals: NaN on the empty array, else sum/length. -/
def npMean (l : List ℚ) : NpFloat :=
  if l.isEmpty then NpFloat.nan else NpFloat.val (l.sum / l.length)

/-- Embedding of `apk(actual, predicted, k)` from `metrics_utils.py`:
truncate `predicted` to its first `k` elements if longer, fold over
`enumerate(predicted)` testing `pred in actual and pred not in predicted[:ind]`,
accumulating `(num_hits, score)`; return `0.0` for empty `actual`, else
`score / min(len(actual), k)`. -/
def apk {α : Type} [DecidableEq α] (actual predicted : List α) (k : ℕ) : ℚ :=
  let t := if k < predicted.length then predicted.take k else predicted
  let r := t.enum.foldl
    (fun (st : ℚ × ℚ) (ip : ℕ × α) =>
      if ip.2 ∈ actual ∧ ip.2 ∉ t.take ip.1 then
        (st.1 + 1, st.2 + (st.1 + 1) / (ip.1 + 1))
      else st)
    (0, 0)
  if actual = [] then 0 else r.2 / ((min actual.length k : ℕ) : ℚ)

/-- Embedding of `mapk(actual, predicted, k)`:
`np.mean([apk(a, p, k) for a, p in zip(actual, predicted)])`. -/
def mapk {α : Type} [DecidableEq α] (actual predicted : List (List α)) (k : ℕ) :
    NpFloat :=
  npMean ((actual.zip predicted).map (fun ap => apk ap.1 ap.2 k))

-- scratch checks (spec §8 examples)
example : apk ({} : List ℤ) [1, 2, 3] 5 = 0 := by decide
example : apk ([1, 2, 3] : List ℤ) [1, 2, 3, 4, 5] 5 = 1 := by
  norm_num [apk, List.enum, List.enumFrom, List.take]
  decide
example : apk ([1] : List ℤ) [1, 1, 2] 3 = 1 := by
  norm_num [apk, List.enum, List.enumFrom, List.take]

/-- Modelled from the spec: is 0-indexed position `i` of the (already
truncated) list `t` a hit, i.e. the element at `i` is a member of `actual`
and does not appear earlier in `t`? -/
def hitAt {α : Type} [DecidableEq α] (actual t : List α) (i : ℕ) : Bool :=
  match t[i]? with
  | some p => decide (p ∈ actual) && !decide (p ∈ t.take i)
  | none => false

/-- Modelled from the spec: number of hit positions strictly below `i`. -/
def numHitsUpto {α : Type} [DecidableEq α] (actual t : List α) (i : ℕ) : ℕ :=
  ((List.range i).filter (fun j => hitAt actual t j)).length

/-- Modelled from the spec: the contribution of position `i` to the score —
at a hit position the walk adds `numHits / (i+1)` where `numHits` has just
been incremented (so it counts hits at positions up to and including `i`). -/
def apkContrib {α : Type} [DecidableEq α] (actual t : List α) (i : ℕ) : ℚ :=
  if hitAt actual t i then (numHitsUpto actual t (i + 1) : ℚ) / (i + 1) else 0

/-- Modelled from the spec: the accumulated score over the truncated list `t`. -/
def apkSpecScore {α : Type} [DecidableEq α] (actual t : List α) : ℚ :=
  ((List.range t.length).map (apkContrib actual t)).sum

/-- Modelled from the spec (§4.2): truncate to the first `k` elements, walk
accumulating the score, return 0 on empty `actual` and otherwise
`score / min(|actual|, k)`. -/
def apkSpec {α : Type} [DecidableEq α] (actual predicted : List α) (k : ℕ) : ℚ :=
  if actual = [] then 0
  else apkSpecScore actual (predicted.take k) / ((min actual.length k : ℕ) : ℚ)

/-- Positions at or beyond the end of the truncated list are never hits. -/
theorem hitAt_false_of_le {α : Type} [DecidableEq α] (actual t : List α) {i : ℕ}
    (h : t.length ≤ i) : hitAt actual t i = false := by
  simp [hitAt, List.getElem?_eq_none h]

theorem numHitsUpto_succ {α : Type} [DecidableEq α] (actual t : List α) (i : ℕ) :
    numHitsUpto actual t (i + 1) =
      numHitsUpto actual t i + (if hitAt actual t i then 1 else 0) := by
  by_cases h : hitAt actual t i <;>
    simp [numHitsUpto, List.range_succ, List.filter_append, h]

theorem apkScore_partial_succ {α : Type} [DecidableEq α] (actual t : List α)
    (j : ℕ) :
    ((List.range (j + 1)).map (apkContrib actual t)).sum =
      ((List.range j).map (apkContrib actual t)).sum + apkContrib actual t j := by
  rw [List.range_succ, List.map_append, List.sum_append]
  simp

/-- The fold in the source's apk, started at position j with the correct
accumulated state, ends in the state described by the spec's walk. -/
theorem apk_foldl_inv {α : Type} [DecidableEq α] (actual t : List α) :
    ∀ (rest : List α) (j : ℕ), t.drop j = rest → j ≤ t.length →
      (List.enumFrom j rest).foldl
        (fun (st : ℚ × ℚ) (ip : ℕ × α) =>
          if ip.2 ∈ actual ∧ ip.2 ∉ t.take ip.1 then
            (st.1 + 1, st.2 + (st.1 + 1) / (ip.1 + 1))
          else st)
        ((numHitsUpto actual t j : ℚ),
          ((List.range j).map (apkContrib actual t)).sum)
      = ((numHitsUpto actual t t.length : ℚ),
          ((List.range t.length).map (apkContrib actual t)).sum)
  | [], j, h1, h2 => by
      have h3 : t.length ≤ j := List.drop_eq_nil_iff.mp h1
      have hj : j = t.length := le_antisymm h2 h3
      subst hj
      rfl
  | p :: rest, j, h1, h2 => by
      have hj : j < t.length := by
        have hlen := congrArg List.length h1
        simp [List.length_drop] at hlen
        omega
      have hget : t[j]? = some p := by
        have h0 : (t.drop j)[0]? = some p := by rw [h1]; simp
        rw [List.getElem?_drop] at h0
        simpa using h0
      have hdrop : t.drop (j + 1) = rest := by
        rw [← List.tail_drop, h1]
        rfl
      have hhit : hitAt actual t j = true ↔ (p ∈ actual ∧ p ∉ t.take j) := by
        simp [hitAt, hget]
      have hstep :
          (if p ∈ actual ∧ p ∉ t.take j then
            (((numHitsUpto actual t j : ℕ) : ℚ) + 1,
              ((List.range j).map (apkContrib actual t)).sum +
                (((numHitsUpto actual t j : ℕ) : ℚ) + 1) / ((j : ℚ) + 1))
          else
            (((numHitsUpto actual t j : ℕ) : ℚ),
              ((List.range j).map (apkContrib actual t)).sum))
          = (((numHitsUpto actual t (j + 1) : ℕ) : ℚ),
              ((List.range (j + 1)).map (apkContrib actual t)).sum) := by
        by_cases hc : p ∈ actual ∧ p ∉ t.take j
        · have hb : hitAt actual t j = true := hhit.mpr hc
          have hH : numHitsUpto actual t (j + 1) = numHitsUpto actual t j + 1 := by
            rw [numHitsUpto_succ, hb]
            simp
          have hC : apkContrib actual t j =
              ((numHitsUpto actual t j : ℚ) + 1) / ((j : ℚ) + 1) := by
            rw [apkContrib, hH]
            simp [hb]
          rw [if_pos hc, apkScore_partial_succ, hH, hC]
          push_cast
          simp
        · have hb : hitAt actual t j = false := by
            cases hcase : hitAt actual t j
            · rfl
            · exact absurd (hhit.mp hcase) hc
          have hH : numHitsUpto actual t (j + 1) = numHitsUpto actual t j := by
            rw [numHitsUpto_succ, hb]
            simp
          have hC : apkContrib actual t j = 0 := by
            rw [apkContrib, hb]
            simp
          rw [if_neg hc, apkScore_partial_succ, hH, hC, add_zero]
      show List.foldl _ _ ((j, p) :: List.enumFrom (j + 1) rest) = _
      rw [List.foldl_cons]
      simp only []
      rw [hstep]
      exact apk_foldl_inv actual t rest (j + 1) hdrop hj

/-- The source's apk computes exactly the value described by the spec's
truncate-walk-divide procedure. -/
theorem apk_eq_apkSpec {α : Type} [DecidableEq α]
    (actual predicted : List α) (k : ℕ) :
    apk actual predicted k = apkSpec actual predicted k := by
  have htr : (if k < predicted.length then predicted.take k else predicted)
      = predicted.take k := by
    split
    · rfl
    · exact (List.take_of_length_le (by omega)).symm
  unfold apk apkSpec apkSpecScore
  rw [htr]
  by_cases ha : actual = []
  · simp [ha]
  · rw [if_neg ha, if_neg ha]
    have h0 : ((0 : ℚ), (0 : ℚ)) =
        ((numHitsUpto actual (predicted.take k) 0 : ℚ),
          ((List.range 0).map (apkContrib actual (predicted.take k))).sum) := by
      simp [numHitsUpto]
    rw [show (predicted.take k).enum = List.enumFrom 0 (predicted.take k) from rfl,
        h0, apk_foldl_inv actual (predicted.take k) (predicted.take k) 0
          (List.drop_zero _) (Nat.zero_le _)]

theorem numHitsUpto_le {α : Type} [DecidableEq α] (actual t : List α) (i : ℕ) :
    numHitsUpto actual t i ≤ i := by
  calc numHitsUpto actual t i
      ≤ (List.range i).length := List.length_filter_le _ _
    _ = i := List.length_range i

theorem sum_map_ite_one {α : Type} (l : List α) (p : α → Bool) :
    (l.map (fun a => if p a then (1 : ℚ) else 0)).sum
      = ((l.filter p).length : ℚ) := by
  induction l with
  | nil => simp
  | cons a l ih =>
      by_cases h : p a
      · simp [List.filter_cons, h, ih]
        ring
      · simp [List.filter_cons, h, ih]

theorem apkSpecScore_nonneg {α : Type} [DecidableEq α] (actual t : List α) :
    0 ≤ apkSpecScore actual t := by
  apply List.sum_nonneg
  intro x hx
  obtain ⟨i, _, rfl⟩ := List.mem_map.mp hx
  rw [apkContrib]
  by_cases h : hitAt actual t i <;> simp [h]
  positivity

theorem apkSpecScore_le_numHits {α : Type} [DecidableEq α] (actual t : List α) :
    apkSpecScore actual t ≤ (numHitsUpto actual t t.length : ℚ) := by
  unfold apkSpecScore
  calc ((List.range t.length).map (apkContrib actual t)).sum
      ≤ ((List.range t.length).map
          (fun i => if hitAt actual t i then (1 : ℚ) else 0)).sum := by
        apply List.sum_le_sum
        intro i _
        rw [apkContrib]
        by_cases h : hitAt actual t i
        · simp only [h, if_true]
          rw [div_le_one (by positivity)]
          have := numHitsUpto_le actual t (i + 1)
          exact_mod_cast this
        · simp [h]
    _ = (numHitsUpto actual t t.length : ℚ) := by
        rw [sum_map_ite_one]
        rfl

theorem length_filterMap_of_isSome {α β : Type} (f : α → Option β) :
    ∀ (l : List α), (∀ a ∈ l, (f a).isSome) → (l.filterMap f).length = l.length
  | [], _ => rfl
  | a :: l, h => by
      obtain ⟨b, hb⟩ := Option.isSome_iff_exists.mp (h a (by simp))
      rw [List.filterMap_cons, hb]
      simp only [List.length_cons]
      rw [length_filterMap_of_isSome f l (fun x hx => h x (by simp [hx]))]

/-- Distinct hit positions carry distinct elements (a later hit is, by
definition, an element not occurring earlier), each a member of actual, so
the number of hits is at most the length of actual. -/
theorem numHits_le_actual_length {α : Type} [DecidableEq α] (actual t : List α) :
    numHitsUpto actual t t.length ≤ actual.length := by
  set idx := (List.range t.length).filter (fun j => hitAt actual t j) with hidx
  have hmem_idx : ∀ i ∈ idx, i < t.length := by
    intro i hi
    exact List.mem_range.mp (List.mem_filter.mp hi).1
  have hhit_idx : ∀ i ∈ idx, hitAt actual t i = true := by
    intro i hi
    exact (List.mem_filter.mp hi).2
  set vals := idx.filterMap (fun i => t[i]?) with hvals
  have hlen : vals.length = idx.length := by
    apply length_filterMap_of_isSome
    intro i hi
    simp [List.getElem?_eq_getElem (hmem_idx i hi)]
  have hof : ∀ i ∈ idx, ∀ x, t[i]? = some x →
      x ∈ actual ∧ x ∉ t.take i := by
    intro i hi x hx
    have h := hhit_idx i hi
    simp only [hitAt, hx, Bool.and_eq_true, decide_eq_true_eq,
      Bool.not_eq_true', decide_eq_false_iff_not] at h
    exact h
  have hsub : vals ⊆ actual := by
    intro a ha
    obtain ⟨i, hi, hfi⟩ := List.mem_filterMap.mp ha
    exact (hof i hi a hfi).1
  have hnd : vals.Nodup := by
    rw [hvals, List.Nodup, List.pairwise_filterMap]
    have hpw : idx.Pairwise (· < ·) :=
      (List.pairwise_lt_range t.length).filter _
    apply List.Pairwise.imp_of_mem ?_ hpw
    intro a b hma hmb hab x hx y hy
    intro hxy
    subst hxy
    have hx' : t[a]? = some x := by simpa using hx
    have hy' : t[b]? = some x := by simpa using hy
    have hbl : b < t.length := hmem_idx b hmb
    have hal : a < t.length := hmem_idx a hma
    have hxa : t[a] = x := by
      rw [List.getElem?_eq_getElem hal] at hx'
      exact Option.some.inj hx'
    have hmemtake : x ∈ t.take b := by
      have hab2 : a < (t.take b).length := by
        simp only [List.length_take]
        omega
      have hgt : (t.take b).get ⟨a, hab2⟩ = t[a] := by
        rw [List.get_eq_getElem]
        exact List.getElem_take ..
      rw [← hxa, ← hgt]
      exact List.get_mem ..
    exact absurd hmemtake (hof b hmb x hy').2
  have : vals.length ≤ actual.length :=
    (List.subperm_of_subset hnd hsub).length_le
  rw [hlen] at this
  exact this

/-- C1: for every actual collection, predicted sequence and positive k, apk
first truncates predicted to its first k elements, then walks the truncated
sequence: at 0-indexed position i, if the element is a member of actual and
does not occur earlier in the truncated sequence, numHits is incremented and
numHits/(i+1) is added to the score; for non-empty actual the result equals
score / min(|actual|, k). -/
theorem apk_matches_spec {α : Type} [DecidableEq α]
    (actual predicted : List α) (k : ℕ) (_hk : 0 < k) :
    apk actual predicted k = apkSpec actual predicted k :=
  apk_eq_apkSpec actual predicted k

theorem apk_matches_spec_witness :
    0 < 3 ∧ apk ([1] : List ℤ) [1, 1, 2] 3 = apkSpec ([1] : List ℤ) [1, 1, 2] 3 :=
  ⟨by decide, apk_matches_spec ([1] : List ℤ) [1, 1, 2] 3 (by decide)⟩

/-- C5: for every predicted sequence and k, apk on an empty actual collection
returns exactly 0 (a value, not an error). -/
theorem apk_empty_actual {α : Type} [DecidableEq α] (predicted : List α) (k : ℕ) :
    apk ([] : List α) predicted k = 0 := by
  simp [apk]

/-- C4: for equal-length, non-empty collections of query pairs, mapk returns
the arithmetic mean of the per-query apk values. -/
theorem mapk_eq_mean {α : Type} [DecidableEq α]
    (actual predicted : List (List α)) (k n : ℕ)
    (ha : actual.length = n) (hp : predicted.length = n) (hn : 0 < n) :
    mapk actual predicted k =
      NpFloat.val (((List.range n).map
        (fun i => apk (actual.getD i []) (predicted.getD i []) k)).sum
          / (n : ℚ)) := by
  have hmap : (actual.zip predicted).map (fun ap => apk ap.1 ap.2 k)
      = (List.range n).map
          (fun i => apk (actual.getD i []) (predicted.getD i []) k) := by
    apply List.ext_getElem
    · simp [List.length_zip, ha, hp]
    · intro i h1 h2
      have hia : i < actual.length := by
        simp only [List.length_map, List.length_zip, ha, hp] at h1
        omega
      have hip : i < predicted.length := by
        simp only [List.length_map, List.length_zip, ha, hp] at h1
        omega
      simp only [List.getElem_map, List.getElem_range, List.getElem_zip]
      rw [List.getD_eq_getElem actual [] hia, List.getD_eq_getElem predicted [] hip]
  unfold mapk npMean
  rw [hmap]
  have hlen : ((List.range n).map
      (fun i => apk (actual.getD i []) (predicted.getD i []) k)).length = n := by
    simp
  have hemp : ¬ (((List.range n).map
      (fun i => apk (actual.getD i []) (predicted.getD i []) k)).isEmpty = true) := by
    rw [List.isEmpty_iff_length_eq_zero, hlen]
    omega
  rw [if_neg hemp, hlen]

theorem mapk_eq_mean_witness :
    ([[1], [3]] : List (List ℤ)).length = 2 ∧
    ([[1, 2], [4]] : List (List ℤ)).length = 2 ∧ 0 < 2 ∧
    mapk ([[1], [3]] : List (List ℤ)) [[1, 2], [4]] 5 =
      NpFloat.val (((List.range 2).map
        (fun i => apk (([[1], [3]] : List (List ℤ)).getD i [])
          (([[1, 2], [4]] : List (List ℤ)).getD i []) 5)).sum / (2 : ℚ)) :=
  ⟨rfl, rfl, by decide, mapk_eq_mean ([[1], [3]] : List (List ℤ)) [[1, 2], [4]] 5 2
    rfl rfl (by decide)⟩

/-- C10: for every actual collection, predicted sequence and k at least 1,
the value returned by apk lies in the closed interval from 0 to 1. -/
theorem apk_mem_unit_interval {α : Type} [DecidableEq α]
    (actual predicted : List α) (k : ℕ) (hk : 1 ≤ k) :
    0 ≤ apk actual predicted k ∧ apk actual predicted k ≤ 1 := by
  rw [apk_eq_apkSpec]
  unfold apkSpec
  by_cases ha : actual = []
  · simp [ha]
  · rw [if_neg ha]
    have hal : 1 ≤ actual.length := by
      cases actual
      · exact absurd rfl ha
      · simp
    have hm : 1 ≤ min actual.length k := le_min hal hk
    have hmq : (0 : ℚ) < ((min actual.length k : ℕ) : ℚ) := by
      exact_mod_cast Nat.lt_of_lt_of_le Nat.zero_lt_one hm
    refine ⟨div_nonneg (apkSpecScore_nonneg _ _) (le_of_lt hmq), ?_⟩
    rw [div_le_one hmq]
    calc apkSpecScore actual (predicted.take k)
        ≤ (numHitsUpto actual (predicted.take k) (predicted.take k).length : ℚ) :=
          apkSpecScore_le_numHits _ _
      _ ≤ ((min actual.length k : ℕ) : ℚ) := by
          rw [Nat.cast_le]
          apply le_min
          · exact numHits_le_actual_length _ _
          · calc numHitsUpto actual (predicted.take k) (predicted.take k).length
                ≤ (predicted.take k).length := numHitsUpto_le _ _ _
              _ ≤ k := by
                  rw [List.length_take]
                  omega

theorem apk_mem_unit_interval_witness :
    1 ≤ 5 ∧ (0 ≤ apk ([1, 7] : List ℤ) [3, 1, 1, 9] 5 ∧
      apk ([1, 7] : List ℤ) [3, 1, 1, 9] 5 ≤ 1) :=
  ⟨by decide, apk_mem_unit_interval ([1, 7] : List ℤ) [3, 1, 1, 9] 5 (by decide)⟩

/-- Cumulative sums with a running total (helper for np.cumsum). -/
def cumsumFrom (acc : ℚ) : List ℚ → List ℚ
  | [] => []
  | x :: xs => (acc + x) :: cumsumFrom (acc + x) xs

/-- np.cumsum on a 1-D array. -/
def cumsum (l : List ℚ) : List ℚ := cumsumFrom 0 l

/-- np.argsort: indices that sort the array ascending by value.  Modelled as
a stable sort of the index list; numpy's default introsort may order tied
keys differently, but no verified statement depends on tie order. -/
def argsort (pred : List ℚ) : List ℕ :=
  (List.range pred.length).mergeSort
    (fun i j => decide (pred.getD i 0 ≤ pred.getD j 0))

/-- Embedding of ginic(actual, pred) from metrics_utils.py: gather actual by
argsort(pred), take cumulative sums, return
(a_c.sum() / a_s.sum() - (n + 1) / 2.0) / n with n = len(actual).  The
gather reads indices with a default of 0; ginicChecked below makes numpy's
fancy-indexing bounds check (IndexError) explicit.  Division here is ℚ's
total division (x / 0 = 0), which agrees with the program only while
a_s.sum() is nonzero: the float divide-by-zero path (±inf/NaN with a
runtime warning when a_s.sum() is 0) is modelled separately by ginicF, and
statements whose truth hinges on that path are settled against ginicF. -/
def ginic (actual pred : List ℚ) : ℚ :=
  let n : ℕ := actual.length
  let a_s := (argsort pred).map (fun i => actual.getD i 0)
  let a_c := cumsum a_s
  (a_c.sum / a_s.sum - ((n : ℚ) + 1) / 2) / (n : ℚ)

/-- The two shapes of the pred argument of gini_normalizedc: a 1-D score
array, or a 2-D probability matrix given as its list of rows. -/
inductive NpInput where
  | dim1 (v : List ℚ)
  | dim2 (rows : List (List ℚ))

/-- Embedding of gini_normalizedc(actual, pred): if pred is 2-D keep only its
second column (index 1), then return ginic(actual, pred) / ginic(actual, actual). -/
def gini_normalizedc (actual : List ℚ) (pred : NpInput) : ℚ :=
  let p := match pred with
    | NpInput.dim1 v => v
    | NpInput.dim2 rows => rows.map (fun r => r.getD 1 0)
  ginic actual p / ginic actual actual

/-- ginic with numpy's fancy-indexing bounds check made explicit:
actual[np.argsort(pred)] raises IndexError (modelled as none) when some sort
index falls outside actual, and otherwise computes as ginic does. -/
def ginicChecked (actual pred : List ℚ) : Option ℚ :=
  let idx := argsort pred
  if idx.all (fun i => decide (i < actual.length)) then
    let a_s := idx.map (fun i => actual.getD i 0)
    let a_c := cumsum a_s
    some ((a_c.sum / a_s.sum - ((actual.length : ℚ) + 1) / 2)
      / (actual.length : ℚ))
  else none

/-- Modelled from the spec (§4.1): reorder actual by ascending order of
predicted (sort the zipped pairs by score), take cumulative sums of the
reordered values, and return (cumsum.sum / actual_sum - (n + 1) / 2) / n with
n the number of items. -/
def giniSpec (actual pred : List ℚ) : ℚ :=
  let reordered := ((pred.zip actual).mergeSort
    (fun x y => decide (x.1 ≤ y.1))).map Prod.snd
  let c := cumsum reordered
  (c.sum / actual.sum - ((actual.length : ℚ) + 1) / 2) / (actual.length : ℚ)

theorem map_getD_range (l : List ℚ) :
    (List.range l.length).map (fun i => l.getD i 0) = l := by
  apply List.ext_getElem
  · simp
  · intro i h1 h2
    simp only [List.getElem_map, List.getElem_range]
    exact List.getD_eq_getElem l 0 h2

theorem map_pair_range (pred actual : List ℚ) (h : pred.length = actual.length) :
    (List.range pred.length).map (fun i => (pred.getD i 0, actual.getD i 0))
      = pred.zip actual := by
  apply List.ext_getElem
  · simp [List.length_zip, h]
  · intro i h1 h2
    have hip : i < pred.length := by simpa using h1
    have hia : i < actual.length := by rw [← h]; simpa using h1
    simp only [List.getElem_map, List.getElem_range, List.getElem_zip]
    rw [List.getD_eq_getElem pred 0 hip, List.getD_eq_getElem actual 0 hia]

/-- Gathering actual along argsort(pred) is the same as sorting the zipped
pairs by score and projecting — stability of the sort aligns the two. -/
theorem gather_argsort_eq_sorted_zip (actual pred : List ℚ)
    (h : actual.length = pred.length) :
    (argsort pred).map (fun i => actual.getD i 0)
      = ((pred.zip actual).mergeSort
          (fun x y => decide (x.1 ≤ y.1))).map Prod.snd := by
  have hmap : ((List.range pred.length).mergeSort
        (fun i j => decide (pred.getD i 0 ≤ pred.getD j 0))).map
        (fun i => (pred.getD i 0, actual.getD i 0))
      = ((List.range pred.length).map
          (fun i => (pred.getD i 0, actual.getD i 0))).mergeSort
          (fun x y => decide (x.1 ≤ y.1)) :=
    List.map_mergeSort (fun _ _ _ _ => rfl)
  have hcomp : (fun i => actual.getD i 0)
      = Prod.snd ∘ (fun i : ℕ => (pred.getD i 0, actual.getD i 0)) := rfl
  rw [argsort, hcomp, ← List.map_map, hmap, map_pair_range pred actual h.symm]

/-- C2: for equal-length non-empty inputs, ginic equals the spec's
reorder-by-score / cumulative-sum / normalize formula. -/
theorem ginic_eq_giniSpec (actual pred : List ℚ)
    (hlen : actual.length = pred.length) (_hne : actual ≠ []) :
    ginic actual pred = giniSpec actual pred := by
  have hperm : List.Perm (((pred.zip actual).mergeSort
      (fun x y => decide (x.1 ≤ y.1))).map Prod.snd) actual := by
    have h1 : List.Perm ((pred.zip actual).mergeSort (fun x y => decide (x.1 ≤ y.1)))
        (pred.zip actual) := List.mergeSort_perm _ _
    have h2 := h1.map Prod.snd
    rwa [List.map_snd_zip pred actual (le_of_eq hlen)] at h2
  show ((cumsum ((argsort pred).map (fun i => actual.getD i 0))).sum
      / ((argsort pred).map (fun i => actual.getD i 0)).sum
      - ((actual.length : ℚ) + 1) / 2) / (actual.length : ℚ) = _
  rw [gather_argsort_eq_sorted_zip actual pred hlen, hperm.sum_eq]
  rfl

theorem ginic_eq_giniSpec_witness :
    ([0, 0, 1, 0, 1] : List ℚ).length = ([1/10, 2/5, 7/20, 4/5, 1/5] : List ℚ).length ∧
    ([0, 0, 1, 0, 1] : List ℚ) ≠ [] ∧
    ginic [0, 0, 1, 0, 1] [1/10, 2/5, 7/20, 4/5, 1/5]
      = giniSpec [0, 0, 1, 0, 1] [1/10, 2/5, 7/20, 4/5, 1/5] :=
  ⟨rfl, by simp, ginic_eq_giniSpec [0, 0, 1, 0, 1] [1/10, 2/5, 7/20, 4/5, 1/5]
    rfl (by simp)⟩

/-- C3: gini_normalizedc divides ginic(actual, pred) by ginic(actual, actual),
and on a two-dimensional pred uses only its second column (index 1) as the
score sequence. -/
theorem gini_normalizedc_spec (actual : List ℚ) :
    (∀ v : List ℚ, gini_normalizedc actual (NpInput.dim1 v)
      = ginic actual v / ginic actual actual) ∧
    (∀ rows : List (List ℚ), gini_normalizedc actual (NpInput.dim2 rows)
      = gini_normalizedc actual (NpInput.dim1 (rows.map (fun r => r.getD 1 0)))) :=
  ⟨fun _ => rfl, fun _ => rfl⟩

/-- Sum over all index pairs i < j of the differences l_j - l_i, computed
head-first; for a sorted list every summand is nonnegative. -/
def pairSum : List ℚ → ℚ
  | [] => 0
  | x :: xs => (xs.sum - (xs.length : ℚ) * x) + pairSum xs

theorem cumsumFrom_shift : ∀ (l : List ℚ) (a b : ℚ),
    cumsumFrom (a + b) l = (cumsumFrom b l).map (fun x => a + x)
  | [], _, _ => rfl
  | x :: xs, a, b => by
      simp only [cumsumFrom, List.map_cons]
      rw [show a + b + x = a + (b + x) from by ring]
      rw [cumsumFrom_shift xs a (b + x)]

theorem sum_map_add_left (a : ℚ) (l : List ℚ) :
    (l.map (fun x => a + x)).sum = l.length * a + l.sum := by
  induction l with
  | nil => simp
  | cons x xs ih =>
      simp only [List.map_cons, List.sum_cons, List.length_cons, ih]
      push_cast
      ring

theorem length_cumsumFrom : ∀ (l : List ℚ) (acc : ℚ),
    (cumsumFrom acc l).length = l.length
  | [], _ => rfl
  | x :: xs, acc => by
      show (cumsumFrom (acc + x) xs).length + 1 = xs.length + 1
      rw [length_cumsumFrom xs (acc + x)]

theorem cumsum_cons_sum (x : ℚ) (xs : List ℚ) :
    (cumsum (x :: xs)).sum = ((xs.length : ℚ) + 1) * x + (cumsum xs).sum := by
  show ((0 + x) :: cumsumFrom (0 + x) xs).sum = _
  rw [zero_add, show cumsumFrom x xs = cumsumFrom (x + 0) xs from by rw [add_zero],
    cumsumFrom_shift xs x 0]
  show x + ((cumsumFrom 0 xs).map (fun y => x + y)).sum = _
  rw [sum_map_add_left]
  show x + ((cumsum xs).length * x + (cumsum xs).sum) = _
  rw [show (cumsum xs).length = xs.length from length_cumsumFrom xs 0]
  ring

/-- The linchpin identity: twice the sum of cumulative sums, minus
(n + 1) times the total, is the negated pair sum. -/
theorem two_mul_cumsum_sum (l : List ℚ) :
    2 * (cumsum l).sum - ((l.length : ℚ) + 1) * l.sum = - pairSum l := by
  induction l with
  | nil => simp [cumsum, cumsumFrom, pairSum]
  | cons x xs ih =>
      rw [cumsum_cons_sum, pairSum]
      simp only [List.sum_cons, List.length_cons]
      push_cast
      linarith [ih]

theorem sum_ge_length_mul (x : ℚ) : ∀ (l : List ℚ), (∀ y ∈ l, x ≤ y) →
    (l.length : ℚ) * x ≤ l.sum
  | [], _ => by simp
  | y :: ys, h => by
      have h1 := h y (by simp)
      have h2 := sum_ge_length_mul x ys (fun z hz => h z (by simp [hz]))
      simp only [List.sum_cons, List.length_cons]
      push_cast
      linarith

theorem sum_gt_length_mul (x : ℚ) : ∀ (l : List ℚ), (∀ y ∈ l, x ≤ y) →
    (∃ y ∈ l, x < y) → (l.length : ℚ) * x < l.sum
  | [], _, hex => by simp at hex
  | z :: zs, hall, hex => by
      simp only [List.sum_cons, List.length_cons]
      push_cast
      obtain ⟨y, hy, hxy⟩ := hex
      rcases List.mem_cons.mp hy with rfl | hmem
      · have h2 := sum_ge_length_mul x zs (fun w hw => hall w (by simp [hw]))
        linarith
      · have hz := hall z (by simp)
        have h2 := sum_gt_length_mul x zs (fun w hw => hall w (by simp [hw]))
          ⟨y, hmem, hxy⟩
        linarith

theorem pairSum_nonneg : ∀ (l : List ℚ), l.Pairwise (· ≤ ·) → 0 ≤ pairSum l
  | [], _ => le_refl 0
  | x :: xs, h => by
      rw [pairSum]
      obtain ⟨hall, htail⟩ := List.pairwise_cons.mp h
      have h2 := pairSum_nonneg xs htail
      have h3 := sum_ge_length_mul x xs hall
      linarith

theorem pairSum_pos : ∀ (l : List ℚ), l.Pairwise (· ≤ ·) →
    (∃ x ∈ l, ∃ y ∈ l, x ≠ y) → 0 < pairSum l
  | [], _, hex => by simp at hex
  | h :: t, hpw, hex => by
      rw [pairSum]
      obtain ⟨hall, hpwt⟩ := List.pairwise_cons.mp hpw
      have hnn := pairSum_nonneg t hpwt
      have hz : ∃ z ∈ t, h < z := by
        obtain ⟨x, hx, y, hy, hxy⟩ := hex
        rcases List.mem_cons.mp hx with rfl | hxt
        · rcases List.mem_cons.mp hy with rfl | hyt
          · exact absurd rfl hxy
          · exact ⟨y, hyt, lt_of_le_of_ne (hall y hyt) hxy⟩
        · rcases List.mem_cons.mp hy with rfl | hyt
          · exact ⟨x, hxt, lt_of_le_of_ne (hall x hxt) (Ne.symm hxy)⟩
          · by_cases hcase : y < x
            · exact ⟨x, hxt, lt_of_le_of_lt (hall y hyt) hcase⟩
            · exact ⟨y, hyt, lt_of_le_of_lt (hall x hxt)
                (lt_of_le_of_ne (not_lt.mp hcase) hxy)⟩
      have hlt := sum_gt_length_mul h t hall hz
      linarith

/-- The gathered array actual[argsort(actual)] is sorted ascending. -/
theorem argsort_gather_sorted (a : List ℚ) :
    ((argsort a).map (fun i => a.getD i 0)).Pairwise (· ≤ ·) := by
  rw [List.pairwise_map]
  have hsorted := @List.sorted_mergeSort ℕ
    (fun i j => decide (a.getD i 0 ≤ a.getD j 0))
    (fun x y z hxy hyz => by
      simp only [decide_eq_true_eq] at hxy hyz ⊢
      exact le_trans hxy hyz)
    (fun x y => by
      simp only [Bool.or_eq_true, decide_eq_true_eq]
      exact le_total _ _)
    (List.range a.length)
  apply hsorted.imp
  intro i j hij
  simpa using hij

/-- The gathered array actual[argsort(actual)] is a permutation of actual. -/
theorem argsort_gather_perm (a : List ℚ) :
    List.Perm ((argsort a).map (fun i => a.getD i 0)) a := by
  have h1 : List.Perm (argsort a) (List.range a.length) :=
    List.mergeSort_perm _ _
  have h2 := h1.map (fun i => a.getD i 0)
  rwa [map_getD_range] at h2

/-- For a non-constant list, the raw self-Gini statistic is nonzero (it is
(-pairSum) scaled by positive quantities, or, when the total is zero and the
quotient collapses, exactly -(n+1)/(2n)). -/
theorem ginic_self_ne_zero (a : List ℚ)
    (hnc : ∃ x ∈ a, ∃ y ∈ a, x ≠ y) : ginic a a ≠ 0 := by
  have hgoal : ginic a a =
      ((cumsum ((argsort a).map (fun i => a.getD i 0))).sum
        / ((argsort a).map (fun i => a.getD i 0)).sum
        - ((a.length : ℚ) + 1) / 2) / (a.length : ℚ) := rfl
  rw [hgoal]
  have hperm := argsort_gather_perm a
  have hsort := argsort_gather_sorted a
  have hsum : ((argsort a).map (fun i => a.getD i 0)).sum = a.sum := hperm.sum_eq
  have hlen : ((argsort a).map (fun i => a.getD i 0)).length = a.length :=
    hperm.length_eq
  have hnc' : ∃ x ∈ (argsort a).map (fun i => a.getD i 0),
      ∃ y ∈ (argsort a).map (fun i => a.getD i 0), x ≠ y := by
    obtain ⟨x, hx, y, hy, hxy⟩ := hnc
    exact ⟨x, hperm.mem_iff.mpr hx, y, hperm.mem_iff.mpr hy, hxy⟩
  have hpos : 0 < pairSum ((argsort a).map (fun i => a.getD i 0)) :=
    pairSum_pos _ hsort hnc'
  have hkey := two_mul_cumsum_sum ((argsort a).map (fun i => a.getD i 0))
  rw [hsum, hlen] at hkey
  have hn2 : 2 ≤ a.length := by
    obtain ⟨x, hx, y, hy, hxy⟩ := hnc
    by_contra hlt
    push_neg at hlt
    interval_cases h : a.length
    · exact absurd hx (by simp [List.length_eq_zero.mp h])
    · obtain ⟨z, hz⟩ := List.length_eq_one.mp h
      rw [hz] at hx hy
      simp only [List.mem_singleton] at hx hy
      exact hxy (hx.trans hy.symm)
  have hnpos : (0 : ℚ) < (a.length : ℚ) := by
    exact_mod_cast Nat.lt_of_lt_of_le Nat.zero_lt_two hn2
  by_cases hS : a.sum = 0
  · rw [hsum, hS, div_zero, zero_sub]
    intro hcontra
    rw [div_eq_zero_iff] at hcontra
    rcases hcontra with h1 | h2
    · rw [neg_eq_zero, div_eq_zero_iff] at h1
      rcases h1 with h1 | h1
      · have : (0 : ℚ) < (a.length : ℚ) + 1 := by linarith
        exact absurd h1 (ne_of_gt this)
      · norm_num at h1
    · exact absurd h2 (ne_of_gt hnpos)
  · intro hcontra
    rw [div_eq_zero_iff] at hcontra
    rcases hcontra with h1 | h2
    · rw [sub_eq_zero, hsum] at h1
      have hSne : a.sum ≠ 0 := hS
      rw [div_eq_div_iff hSne (by norm_num : (2:ℚ) ≠ 0)] at h1
      have hzero : pairSum ((argsort a).map (fun i => a.getD i 0)) = 0 := by
        linarith
      exact absurd hzero (ne_of_gt hpos)
    · exact absurd h2 (ne_of_gt hnpos)

/-- An IEEE-style float value as needed by the Gini division path: NaN, a
signed infinity (sign true = positive), or a finite value (signed zeros are
collapsed to fin 0, which no statement here depends on). -/
inductive FloatVal where
  | nan : FloatVal
  | inf (sign : Bool) : FloatVal
  | fin (q : ℚ) : FloatVal
  deriving DecidableEq

/-- IEEE float division on FloatVal: NaN propagates, inf/inf = NaN,
x/0 = signed inf for nonzero finite x (0/0 = NaN), finite/inf = 0. -/
def floatDiv : FloatVal → FloatVal → FloatVal
  | FloatVal.nan, _ => FloatVal.nan
  | _, FloatVal.nan => FloatVal.nan
  | FloatVal.inf _, FloatVal.inf _ => FloatVal.nan
  | FloatVal.inf s, FloatVal.fin b => FloatVal.inf (s == decide (0 ≤ b))
  | FloatVal.fin _, FloatVal.inf _ => FloatVal.fin 0
  | FloatVal.fin a, FloatVal.fin b =>
      if b = 0 then
        (if a = 0 then FloatVal.nan else FloatVal.inf (decide (0 < a)))
      else FloatVal.fin (a / b)

/-- IEEE float subtraction on FloatVal: NaN propagates, and inf minus inf of
the same sign is NaN. -/
def floatSub : FloatVal → FloatVal → FloatVal
  | FloatVal.nan, _ => FloatVal.nan
  | _, FloatVal.nan => FloatVal.nan
  | FloatVal.fin a, FloatVal.fin b => FloatVal.fin (a - b)
  | FloatVal.inf s, FloatVal.fin _ => FloatVal.inf s
  | FloatVal.fin _, FloatVal.inf s => FloatVal.inf (!s)
  | FloatVal.inf s, FloatVal.inf t => if s == t then FloatVal.nan else FloatVal.inf s

/-- ginic with the numpy float division semantics kept: the same gather and
cumulative sums as ginic, but a_c.sum() / a_s.sum() divides by zero into a
signed infinity (or NaN) exactly as float64 does, and the result propagates
through the subtraction and the final division by n. -/
def ginicF (actual pred : List ℚ) : FloatVal :=
  let n : ℕ := actual.length
  let a_s := (argsort pred).map (fun i => actual.getD i 0)
  let a_c := cumsum a_s
  floatDiv
    (floatSub (floatDiv (FloatVal.fin a_c.sum) (FloatVal.fin a_s.sum))
      (FloatVal.fin (((n : ℚ) + 1) / 2)))
    (FloatVal.fin (n : ℚ))

/-- gini_normalizedc over the float-faithful ginicF: the same ndim dispatch,
then the ratio ginicF(actual, p) / ginicF(actual, actual). -/
def gini_normalizedcF (actual : List ℚ) (pred : NpInput) : FloatVal :=
  let p := match pred with
    | NpInput.dim1 v => v
    | NpInput.dim2 rows => rows.map (fun r => r.getD 1 0)
  floatDiv (ginicF actual p) (ginicF actual actual)

/-- Off the degenerate path (nonzero gathered sum, nonzero length) the float
model and the rational ginic agree. -/
theorem ginicF_eq_fin (actual pred : List ℚ)
    (hsum : ((argsort pred).map (fun i => actual.getD i 0)).sum ≠ 0)
    (hn : actual.length ≠ 0) :
    ginicF actual pred = FloatVal.fin (ginic actual pred) := by
  have hnq : ((actual.length : ℚ)) ≠ 0 := Nat.cast_ne_zero.mpr hn
  show floatDiv (floatSub (floatDiv _ _) _) _ = _
  rw [floatDiv, if_neg hsum, floatSub, floatDiv, if_neg hnq]
  rfl

/-- C6 counterexample: a = [-1, 1] is non-constant, yet the program computes
a_s.sum() = 0, ginic(a, a) = -inf, and gini_normalizedc(a, a) = NaN, not 1.0. -/
theorem gini_normalized_self_nan_counterexample :
    (∃ x ∈ ([-1, 1] : List ℚ), ∃ y ∈ ([-1, 1] : List ℚ), x ≠ y) ∧
    gini_normalizedcF [-1, 1] (NpInput.dim1 [-1, 1]) = FloatVal.nan := by
  refine ⟨⟨-1, by simp, 1, by simp, by norm_num⟩, ?_⟩
  have hsort : argsort [-1, 1] = [0, 1] := by
    rw [argsort, show List.range ([(-1 : ℚ), 1].length) = [0, 1] from rfl]
    apply List.mergeSort_of_sorted
    norm_num [List.pairwise_cons, List.getD]
  have hg : ginicF [-1, 1] [-1, 1] = FloatVal.inf false := by
    unfold ginicF
    rw [hsort]
    norm_num [cumsum, cumsumFrom, List.getD, floatDiv, floatSub]
  show floatDiv (ginicF [-1, 1] [-1, 1]) (ginicF [-1, 1] [-1, 1]) = FloatVal.nan
  rw [hg]
  rfl

/-- C6 amended: for every non-constant sequence a whose sum is nonzero, the
float computation of the normalized self-Gini gini_normalizedc(a, a) equals
1.0; when the sum is zero the division by a_s.sum() yields infinities and
the ratio is NaN. -/
theorem gini_normalized_self_amended (a : List ℚ)
    (hnc : ∃ x ∈ a, ∃ y ∈ a, x ≠ y) (hsum : a.sum ≠ 0) :
    gini_normalizedcF a (NpInput.dim1 a) = FloatVal.fin 1 := by
  have hn : a.length ≠ 0 := by
    obtain ⟨x, hx, _⟩ := hnc
    intro h
    rw [List.length_eq_zero] at h
    rw [h] at hx
    exact absurd hx (List.not_mem_nil x)
  have hsum' : ((argsort a).map (fun i => a.getD i 0)).sum ≠ 0 := by
    rw [(argsort_gather_perm a).sum_eq]
    exact hsum
  have hg := ginic_self_ne_zero a hnc
  show floatDiv (ginicF a a) (ginicF a a) = FloatVal.fin 1
  rw [ginicF_eq_fin a a hsum' hn, floatDiv, if_neg hg, div_self hg]

theorem gini_normalized_self_amended_witness :
    (∃ x ∈ ([0, 1] : List ℚ), ∃ y ∈ ([0, 1] : List ℚ), x ≠ y) ∧
    ([0, 1] : List ℚ).sum ≠ 0 ∧
    gini_normalizedcF [0, 1] (NpInput.dim1 [0, 1]) = FloatVal.fin 1 :=
  ⟨⟨0, by simp, 1, by simp, by norm_num⟩, by norm_num,
    gini_normalized_self_amended [0, 1]
      ⟨0, by simp, 1, by simp, by norm_num⟩ (by norm_num)⟩

theorem mem_argsort {p : List ℚ} {i : ℕ} : i ∈ argsort p ↔ i < p.length := by
  rw [argsort, List.mem_mergeSort, List.mem_range]

/-- ginic's gather actual[np.argsort(pred)] raises (IndexError) exactly when
pred is longer than actual; when pred is shorter or equal it silently
computes a value. -/
theorem ginicChecked_isSome (actual pred : List ℚ) :
    (ginicChecked actual pred).isSome = true ↔ pred.length ≤ actual.length := by
  unfold ginicChecked
  by_cases h : (argsort pred).all (fun i => decide (i < actual.length))
  · rw [if_pos h]
    simp only [Option.isSome_some, true_iff]
    by_cases hp : pred.length = 0
    · omega
    · have hmem : pred.length - 1 ∈ argsort pred := mem_argsort.mpr (by omega)
      have hlt := List.all_eq_true.mp h _ hmem
      simp only [decide_eq_true_eq] at hlt
      omega
  · rw [if_neg h]
    apply iff_of_false
    · simp
    · intro hle
      apply h
      rw [List.all_eq_true]
      intro i hi
      simp only [decide_eq_true_eq]
      exact lt_of_lt_of_le (mem_argsort.mp hi) hle

theorem zip_append_left {α β : Type} : ∀ (X : List α) (Y : List β) (Z : List α),
    Y.length ≤ X.length → (X ++ Z).zip Y = X.zip Y
  | _, [], _, _ => by simp
  | [], _ :: _, _, h => by simp at h
  | x :: xs, y :: ys, Z, h => by
      simp only [List.cons_append, List.zip_cons_cons]
      rw [zip_append_left xs ys Z (by simpa using h)]

/-- C7 amended: mismatched lengths are not rejected up front — ginic only
fails (numpy IndexError from fancy indexing) when pred is strictly longer
than actual, silently computing a value when pred is shorter; and mapk
silently drops unpaired trailing queries via zip instead of erroring. -/
theorem mismatched_inputs_not_rejected {α : Type} [DecidableEq α]
    (actual pred : List ℚ) (X Z Y : List (List α)) (k : ℕ)
    (h : Y.length ≤ X.length) :
    ((ginicChecked actual pred).isSome = true ↔ pred.length ≤ actual.length) ∧
    mapk (X ++ Z) Y k = mapk X Y k := by
  refine ⟨ginicChecked_isSome actual pred, ?_⟩
  unfold mapk
  rw [zip_append_left X Y Z h]

theorem mismatched_inputs_not_rejected_witness :
    ([[2]] : List (List ℤ)).length ≤ ([[1]] : List (List ℤ)).length ∧
    (((ginicChecked [1, 2, 3] [5]).isSome = true
        ↔ ([5] : List ℚ).length ≤ ([1, 2, 3] : List ℚ).length) ∧
      mapk (([[1]] : List (List ℤ)) ++ [[3]]) [[2]] 7
        = mapk ([[1]] : List (List ℤ)) [[2]] 7) :=
  ⟨by decide,
    mismatched_inputs_not_rejected [1, 2, 3] [5] [[1]] [[3]] [[2]] 7 (by decide)⟩

/-- C7 counterexample: on mismatched lengths (here |pred| = 1 < 3 = |actual|
for Gini, and 2 actual-lists against 1 predicted-list for MAP@k) both
operations compute and return a value instead of surfacing an error. -/
theorem mismatch_computes_value_counterexample :
    ginicChecked [1, 2, 3] [5] = some (-1/3) ∧
    mapk ([[1], [2]] : List (List ℤ)) [[1]] 5 = NpFloat.val 1 := by
  constructor
  · have hsort : argsort [5] = [0] := by
      rw [argsort]
      rw [show List.range ([(5 : ℚ)].length) = [0] from rfl]
      exact List.mergeSort_singleton _
    unfold ginicChecked
    rw [hsort]
    norm_num [cumsum, cumsumFrom, List.getD]
  · norm_num [mapk, npMean, apk, List.enum, List.enumFrom, List.take]

/-- C8 amended: mapk on empty inputs returns NaN (numpy's mean of an empty
collection, which warns and yields NaN) rather than raising an error. -/
theorem mapk_empty_inputs_nan {α : Type} [DecidableEq α]
    (actual predicted : List (List α)) (k : ℕ)
    (h : actual = [] ∨ predicted = []) :
    mapk actual predicted k = NpFloat.nan := by
  rcases h with h | h <;> simp [mapk, npMean, h]

theorem mapk_empty_inputs_nan_witness :
    (([] : List (List ℤ)) = [] ∨ ([[1]] : List (List ℤ)) = []) ∧
    mapk ([] : List (List ℤ)) [[1]] 5 = NpFloat.nan :=
  ⟨Or.inl rfl, mapk_empty_inputs_nan ([] : List (List ℤ)) [[1]] 5 (Or.inl rfl)⟩

/-- C8 counterexample: at the concrete empty input, mapk evaluates to the
NaN value — it returns (numpy only emits a runtime warning), it does not
fail with an error. -/
theorem mapk_empty_returns_nan_counterexample :
    mapk ([] : List (List ℤ)) ([] : List (List ℤ)) 3 = NpFloat.nan := by
  decide

/-- A training-data handle exposing labels (xgb.DMatrix / lgb.Dataset). -/
structure TrainData where
  get_label : List ℚ

/-- The shapes a framework adapter can return: a (name, value) pair, a
(name, value, higher-is-better) triple, or lists of either. -/
inductive AdapterResult (β : Type) where
  | pair (name : String) (value : β)
  | triple (name : String) (value : β) (higherIsBetter : Bool)
  | pairList (entries : List (String × β))
  | tripleList (entries : List (String × β × Bool))

/-- Does the result consist of (name, value, higher-is-better) 3-tuples? -/
def AdapterResult.isTripleShaped {β : Type} : AdapterResult β → Bool
  | AdapterResult.triple _ _ _ => true
  | AdapterResult.tripleList _ => true
  | _ => false

/-- Embedding of rmsle_xgb(preds, dtrain): the value lives in ℝ since it
takes a square root of a mean of squared log1p differences; the adapter
returns the 2-tuple ('rmsle', value) of the XGBoost convention. -/
noncomputable def rmsle_xgb (preds : List ℚ) (dtrain : TrainData) :
    AdapterResult ℝ :=
  let actuals := dtrain.get_label
  let temp_values := List.zipWith
    (fun a p => (Real.log (1 + max 0 (a : ℝ)) - Real.log (1 + max 0 (p : ℝ))) ^ 2)
    actuals preds
  AdapterResult.pair "rmsle" (Real.sqrt (temp_values.sum / temp_values.length))

/-- Embedding of gini_xgb(preds, dtrain): a singleton list holding the
2-tuple ('gini', value). -/
def gini_xgb (preds : NpInput) (dtrain : TrainData) : AdapterResult ℚ :=
  AdapterResult.pairList [("gini", gini_normalizedc dtrain.get_label preds)]

/-- Embedding of gini_lgb(preds, dtrain): the 3-tuple ('gini', value, True). -/
def gini_lgb (preds : NpInput) (dtrain : TrainData) : AdapterResult ℚ :=
  AdapterResult.triple "gini" (gini_normalizedc dtrain.get_label preds) true

/-- C9 amended: gini_lgb follows the LightGBM (name, value, higher-is-better)
3-tuple convention, while the XGBoost adapters return (name, value)
2-tuples — rmsle_xgb a bare pair and gini_xgb a singleton list of pairs. -/
theorem adapter_result_shapes (p1 : NpInput) (d1 : TrainData)
    (p2 : List ℚ) (d2 : TrainData) (p3 : NpInput) (d3 : TrainData) :
    gini_lgb p1 d1
      = AdapterResult.triple "gini" (gini_normalizedc d1.get_label p1) true ∧
    (∃ v, rmsle_xgb p2 d2 = AdapterResult.pair "rmsle" v) ∧
    (∃ w, gini_xgb p3 d3 = AdapterResult.pairList [("gini", w)]) :=
  ⟨rfl, ⟨_, rfl⟩, ⟨_, rfl⟩⟩

/-- C9 counterexample: at concrete inputs, the XGBoost adapters do not
return (name, value, higher-is-better) 3-tuples (or collections of them). -/
theorem adapter_not_triple_counterexample :
    (rmsle_xgb [] ⟨[]⟩).isTripleShaped = false ∧
    (gini_xgb (NpInput.dim1 []) ⟨[]⟩).isTripleShaped = false :=
  ⟨rfl, rfl⟩

end KaggleUtils
